import Mathlib

/-!
Verification development for the schema-consistency checker in
`scripts/validate_sql_schema.py`.

The Python script is embedded shallowly: its regex scans are modelled as
explicit left-to-right character scanners over `List Char`, its dictionaries
as association lists with insert-or-overwrite semantics, and its report as a
structure of counts and formatted message strings.  `\w` is modelled as the
ASCII word characters (letters, digits, underscore), matching the script's
ASCII SQL input.
-/

namespace SqlValidate

/-- ASCII model of the regex class `\w`: letters, digits and underscore. -/
def isWordChar (c : Char) : Bool :=
  c.isAlpha || c.isDigit || c = '_'

/-- The whitespace characters stripped by Python's `str.strip()`. -/
def pyIsSpace (c : Char) : Bool :=
  c = ' ' || c = '\t' || c = '\n' || c = '\r' || c = '\x0b' || c = '\x0c'

/-- Python `str.lower()` on ASCII text. -/
def toLowerL (s : List Char) : List Char := s.map Char.toLower

/-- Python `str.upper()` on ASCII text. -/
def toUpperL (s : List Char) : List Char := s.map Char.toUpper

/-- Case-sensitive prefix test, as used for `str.startswith` and for locating
case-sensitive regex literals. -/
def startsWithL : List Char → List Char → Bool
  | [], _ => true
  | _ :: _, [] => false
  | p :: ps, c :: cs => decide (p = c) && startsWithL ps cs

/-- Match a case-insensitive literal at the head of the text, returning the
consumed text characters (original case) and the remaining text. -/
def matchLitCI : List Char → List Char → Option (List Char × List Char)
  | [], s => some ([], s)
  | _ :: _, [] => none
  | p :: ps, c :: cs =>
    if c.toLower = p.toLower then
      (matchLitCI ps cs).map (fun tr => (c :: tr.1, tr.2))
    else none

/-- Case-sensitive substring test. -/
def hasSubL (pat : List Char) : List Char → Bool
  | [] => startsWithL pat []
  | c :: cs => startsWithL pat (c :: cs) || hasSubL pat cs

/-- Case-insensitive substring test. -/
def hasSubCI (pat : List Char) : List Char → Bool
  | [] => (matchLitCI pat []).isSome
  | c :: cs => (matchLitCI pat (c :: cs)).isSome || hasSubCI pat cs

/-- Split the text at the first (case-sensitive) occurrence of `d`, returning
the part before it and the part after it.  This is the behaviour of the lazy
regex fragment `(.*?)d` under `re.DOTALL`. -/
def splitAtSub (d : List Char) : List Char → Option (List Char × List Char)
  | [] => if startsWithL d [] then some ([], []) else none
  | c :: cs =>
    if startsWithL d (c :: cs) then some ([], (c :: cs).drop d.length)
    else (splitAtSub d cs).map (fun pr => (c :: pr.1, pr.2))

/-- Python `str.strip()`. -/
def trimPy (s : List Char) : List Char :=
  ((s.dropWhile pyIsSpace).reverse.dropWhile pyIsSpace).reverse

/-- Python `str.split('\n')`: all pieces are kept, including empty ones, and
the empty string splits to one empty piece. -/
def splitOnNl : List Char → List (List Char)
  | [] => [[]]
  | c :: cs =>
    if c = '\n' then [] :: splitOnNl cs
    else
      match splitOnNl cs with
      | [] => [[c]]
      | p :: ps => (c :: p) :: ps

end SqlValidate

namespace SqlValidate

/-- Association-list lookup: Python `dict` lookup (keys are unique because
insertion overwrites). -/
def lookupD {α : Type} : List (List Char × α) → List Char → Option α
  | [], _ => none
  | (k, v) :: d, key => if k = key then some v else lookupD d key

/-- Python `dict` assignment: overwrite the value when the key is present,
append otherwise. -/
def dictInsert {α : Type} : List (List Char × α) → List Char → α → List (List Char × α)
  | [], k, v => [(k, v)]
  | (k', v') :: d, k, v =>
    if k' = k then (k', v) :: d else (k', v') :: dictInsert d k v

end SqlValidate

namespace SqlValidate

/-- The literal prefix of the table regex
`CREATE OR REPLACE TABLE (\w+) \((.*?)\);` (keywords and the following
space), matched case-insensitively. -/
def tableKw : List Char := "CREATE OR REPLACE TABLE ".toList

/-- The literal ` (` that follows the captured table name in the table
regex. -/
def spaceParen : List Char := [' ', '(']

/-- The literal `);` terminating the lazily-captured table body. -/
def rparenSemi : List Char := [')', ';']

/-- Attempt to match the table regex at the current position, exactly as
`re.findall(r'CREATE OR REPLACE TABLE (\w+) \((.*?)\);', ·, DOTALL|IGNORECASE)`
would: the case-insensitive keyword literal, a nonempty greedy `\w+` capture,
the literal ` (`, then the shortest body terminated by `);`.  Returns the two
captures and the text after the match. -/
def tryTableAt (s : List Char) : Option ((List Char × List Char) × List Char) :=
  match matchLitCI tableKw s with
  | none => none
  | some (_, s1) =>
    let name := s1.takeWhile isWordChar
    let s2 := s1.dropWhile isWordChar
    if name.isEmpty then none
    else if startsWithL spaceParen s2 then
      match splitAtSub rparenSemi (s2.drop 2) with
      | none => none
      | some (body, rest) => some ((name, body), rest)
    else none

/-- Fuel-indexed left-to-right scan for all non-overlapping matches of the
table regex, as `re.findall` performs.  Each step either emits a match and
resumes after it or advances one character. -/
def scanTablesF : Nat → List Char → List (List Char × List Char)
  | 0, _ => []
  | _, [] => []
  | fuel + 1, c :: cs =>
    match tryTableAt (c :: cs) with
    | some (nb, rest) => nb :: scanTablesF fuel rest
    | none => scanTablesF fuel cs

/-- All `(name, body)` matches of the table regex, in document order. -/
def scanTables (s : List Char) : List (List Char × List Char) :=
  scanTablesF s.length s

/-- One line of a table body: after `str.strip()`, keep it as a column
declaration unless it is empty, a `--` comment, or a `FOREIGN KEY`
constraint; the column name is the leading `\w+` token (`re.match`). -/
def colOfLine (line : List Char) : Option (List Char) :=
  let l := trimPy line
  if l.isEmpty then none
  else if startsWithL ("--".toList) l then none
  else if startsWithL ("FOREIGN KEY".toList) l then none
  else
    let w := l.takeWhile isWordChar
    if w.isEmpty then none else some w

/-- Column names extracted from one table body, in declared order. -/
def parseColumns (body : List Char) : List (List Char) :=
  (splitOnNl body).filterMap colOfLine

/-- `extract_table_columns` from the script: map each matched table to its
parsed column list, keyed by the lower-cased table name, later definitions
overwriting earlier ones (Python dict assignment). -/
def extract_table_columns (text : List Char) : List (List Char × List (List Char)) :=
  (scanTables text).foldl
    (fun d nb => dictInsert d (toLowerL nb.1) (parseColumns nb.2)) []

end SqlValidate

namespace SqlValidate

/-- The case-insensitive literal head of the semantic-view regex
`CREATE OR REPLACE SEMANTIC VIEW.*?(?=CREATE|$)`. -/
def svMarker : List Char := "CREATE OR REPLACE SEMANTIC VIEW".toList

/-- The literal inside the lookahead `(?=CREATE|$)`. -/
def createLit : List Char := "CREATE".toList

/-- The stop condition of the lazy `.*?(?=CREATE|$)` under `re.IGNORECASE`
without `re.MULTILINE`: the next characters spell `CREATE` case-insensitively,
or the position is at end of text, or just before a final newline. -/
def viewStop (s : List Char) : Bool :=
  (matchLitCI createLit s).isSome || s.isEmpty || decide (s = ['\n'])

/-- Lazy expansion of `.*?` up to the first position satisfying `viewStop`:
returns the consumed characters and the remaining text. -/
def lazyUntil : List Char → List Char × List Char
  | [] => ([], [])
  | c :: cs =>
    if viewStop (c :: cs) then ([], c :: cs)
    else
      let pr := lazyUntil cs
      (c :: pr.1, pr.2)

/-- Fuel-indexed scan for all non-overlapping matches of the semantic-view
regex; each match is the marker text plus the lazily-matched block body, and
scanning resumes at the lookahead position. -/
def scanViewsF : Nat → List Char → List (List Char)
  | 0, _ => []
  | _, [] => []
  | fuel + 1, c :: cs =>
    match matchLitCI svMarker (c :: cs) with
    | some (t, s1) =>
      (t ++ (lazyUntil s1).1) :: scanViewsF fuel (lazyUntil s1).2
    | none => scanViewsF fuel cs

/-- All semantic-view blocks of the text, in document order. -/
def scanViews (s : List Char) : List (List Char) :=
  scanViewsF s.length s

/-- Fuel-indexed scan for all non-overlapping matches of `(\w+)\.(\w+)`:
a maximal word run, a literal dot, and a nonempty greedy word run; on a
match the scan resumes after the second run. -/
def findDottedF : Nat → List Char → List (List Char × List Char)
  | 0, _ => []
  | _, [] => []
  | fuel + 1, c :: cs =>
    if isWordChar c then
      let w1 := (c :: cs).takeWhile isWordChar
      match (c :: cs).dropWhile isWordChar with
      | '.' :: r2 =>
        let w2 := r2.takeWhile isWordChar
        if w2.isEmpty then findDottedF fuel r2
        else (w1, w2) :: findDottedF fuel (r2.dropWhile isWordChar)
      | r1 => findDottedF fuel r1
    else findDottedF fuel cs

/-- All `(alias, column)` dotted pairs of a block, in order. -/
def findDotted (s : List Char) : List (List Char × List Char) :=
  findDottedF s.length s

/-- `extract_semantic_view_references` from the script: the dotted pairs of
every semantic-view block, blocks in document order, pairs concatenated. -/
def extract_semantic_view_references (text : List Char) : List (List Char × List Char) :=
  ((scanViews text).map findDotted).flatten

end SqlValidate

namespace SqlValidate

/-- The script's static `alias_mapping` table. -/
def aliasMapping : List (List Char × List Char) :=
  [ ("demographics".toList, "audience_demographics".toList)
  , ("segments".toList, "audience_segments".toList)
  , ("creatives".toList, "creative_metadata".toList)
  , ("performance".toList, "campaign_performance".toList)
  , ("attribution".toList, "attribution_events".toList)
  , ("engagement".toList, "media_channel_engagement".toList)
  , ("consent".toList, "consent_privacy".toList) ]

/-- The aggregate keywords checked against `column.upper()`. -/
def aggFns : List (List Char) :=
  [ "COUNT".toList, "SUM".toList, "AVG".toList, "MAX".toList, "MIN".toList ]

/-- The named computed metrics checked against `column.lower()`. -/
def computedMetrics : List (List Char) :=
  [ "total_segments".toList, "total_audiences".toList, "lookalike_segments".toList
  , "opt_in_audiences".toList, "total_impressions".toList, "total_clicks".toList
  , "total_conversions".toList, "total_cost".toList, "average_roi".toList
  , "average_ctr".toList, "average_sentiment".toList, "total_attribution_events".toList
  , "average_attribution".toList, "total_reach".toList, "average_frequency".toList
  , "average_engagement_rate".toList ]

/-- List membership as a boolean, Python's `in` on a list of strings. -/
def memL (x : List Char) : List (List Char) → Bool
  | [] => false
  | y :: ys => if x = y then true else memL x ys

/-- The skip test of the validator loop: the column is an aggregate keyword
(upper-cased) or a named computed metric (lower-cased). -/
def isPseudo (column : List Char) : Bool :=
  memL (toUpperL column) aggFns || memL (toLowerL column) computedMetrics

/-- `alias_mapping.get(alias.lower(), alias.lower())`: the total alias
resolver. -/
def resolveAlias (a : List Char) : List Char :=
  match lookupD aliasMapping (toLowerL a) with
  | some t => t
  | none => toLowerL a

/-- The per-reference outcome of the validator loop. -/
inductive Outcome : Type where
  | skip : Outcome
  | ok : Outcome
  | caseMismatch : List Char → List Char → List Char → Outcome
  | columnNotFound : List Char → List Char → List Char → Outcome
  | tableNotFound : List Char → List Char → Outcome
deriving DecidableEq, Repr

/-- Classify one `(alias, column)` reference exactly as the validator loop
does: skip pseudo-columns; resolve the alias; report a missing table; accept
an exact-case column; otherwise report the first case-insensitive match as a
case mismatch, or a missing column. -/
def classifyRef (tables : List (List Char × List (List Char)))
    (r : List Char × List Char) : Outcome :=
  if isPseudo r.2 then .skip
  else
    let tn := resolveAlias r.1
    match lookupD tables tn with
    | none => .tableNotFound r.1 tn
    | some cols =>
      if r.2 ∈ cols then .ok
      else
        match cols.filter (fun c => toLowerL c = toLowerL r.2) with
        | [] => .columnNotFound r.1 r.2 tn
        | c :: _ => .caseMismatch r.1 r.2 c

/-- The error line `❌ Case mismatch: a.c should be a.correct`. -/
def mkCaseErr (a column correct : List Char) : List Char :=
  "❌ Case mismatch: ".toList ++ a ++ '.' :: column
    ++ " should be ".toList ++ a ++ '.' :: correct

/-- The warning line `⚠️  Column not found: a.c in table t`. -/
def mkColWarn (a column table : List Char) : List Char :=
  "⚠️  Column not found: ".toList ++ a ++ '.' :: column
    ++ " in table ".toList ++ table

/-- The warning line `⚠️  Table not found: t for alias a`. -/
def mkTblWarn (table a : List Char) : List Char :=
  "⚠️  Table not found: ".toList ++ table ++ " for alias ".toList ++ a

/-- The error lines contributed by one reference (at most one). -/
def refErrors (tables : List (List Char × List (List Char)))
    (r : List Char × List Char) : List (List Char) :=
  match classifyRef tables r with
  | .caseMismatch a c correct => [mkCaseErr a c correct]
  | _ => []

/-- The warning lines contributed by one reference (at most one). -/
def refWarnings (tables : List (List Char × List (List Char)))
    (r : List Char × List Char) : List (List Char) :=
  match classifyRef tables r with
  | .columnNotFound a c t => [mkColWarn a c t]
  | .tableNotFound a t => [mkTblWarn t a]
  | _ => []

/-- The summary filter for `Column references checked`: the script counts the
references whose column is not literally `COUNT`, `SUM` or `AVG`
(exact case, aggregates only). -/
def csaList : List (List Char) :=
  [ "COUNT".toList, "SUM".toList, "AVG".toList ]

/-- Whether one reference is included in the `Column references checked`
summary count. -/
def checkedPred (r : List Char × List Char) : Bool :=
  !(memL r.2 csaList)

/-- The printed report of `validate_column_references`: the table and
reference tallies, the ordered error and warning lines, and the summary
count of checked references. -/
structure Report : Type where
  tablesAnalyzed : Nat
  refsFound : Nat
  errors : List (List Char)
  warnings : List (List Char)
  refsChecked : Nat
deriving DecidableEq, Repr

/-- The pure body of `validate_column_references`: extract the schemas and
references and fold the validator loop into a report. -/
def validationReport (text : List Char) : Report :=
  let tables := extract_table_columns text
  let refs := extract_semantic_view_references text
  { tablesAnalyzed := tables.length
  , refsFound := refs.length
  , errors := (refs.map (refErrors tables)).flatten
  , warnings := (refs.map (refWarnings tables)).flatten
  , refsChecked := (refs.filter checkedPred).length }

/-- The return value of `validate_column_references`: `len(errors) == 0`. -/
def validate_column_references (text : List Char) : Bool :=
  (validationReport text).errors.length == 0

/-- The process exit code chosen in `__main__`: `exit(0 if success else 1)`. -/
def exitCode (success : Bool) : Nat :=
  if success then 0 else 1

end SqlValidate

namespace SqlValidate

theorem startsWithL_eq : ∀ (p s : List Char), startsWithL p s = true → s = p ++ s.drop p.length := by
  intro p
  induction p with
  | nil => intro s _; simp
  | cons x xs ih =>
    intro s h
    cases s with
    | nil => simp [startsWithL] at h
    | cons c cs =>
      simp only [startsWithL, Bool.and_eq_true, decide_eq_true_eq] at h
      obtain ⟨hx, hrest⟩ := h
      subst hx
      simpa [List.drop_succ_cons] using congrArg (x :: ·) (ih cs hrest)

theorem startsWithL_self : ∀ (p r : List Char), startsWithL p (p ++ r) = true := by
  intro p
  induction p with
  | nil => intro r; rfl
  | cons x xs ih => intro r; simp [startsWithL, ih]

theorem matchLitCI_some : ∀ (pat s t r : List Char), matchLitCI pat s = some (t, r) →
    s = t ++ r ∧ t.map Char.toLower = pat.map Char.toLower := by
  intro pat
  induction pat with
  | nil =>
    intro s t r h
    simp only [matchLitCI, Option.some.injEq, Prod.mk.injEq] at h
    obtain ⟨ht, hr⟩ := h
    subst ht; subst hr; simp
  | cons p ps ih =>
    intro s t r h
    cases s with
    | nil => simp [matchLitCI] at h
    | cons c cs =>
      simp only [matchLitCI] at h
      by_cases hc : c.toLower = p.toLower
      · rw [if_pos hc] at h
        cases hm : matchLitCI ps cs with
        | none => rw [hm] at h; simp at h
        | some tr =>
          obtain ⟨t', r'⟩ := tr
          rw [hm] at h
          simp only [Option.map_some', Option.some.injEq, Prod.mk.injEq] at h
          obtain ⟨ht, hr⟩ := h
          subst hr
          obtain ⟨hs, hmap⟩ := ih cs t' r' hm
          subst hs
          constructor
          · rw [← ht]; rfl
          · rw [← ht]; simp [hmap, hc]
      · rw [if_neg hc] at h; simp at h

theorem matchLitCI_build : ∀ (pat kw rest : List Char),
    kw.map Char.toLower = pat.map Char.toLower →
    matchLitCI pat (kw ++ rest) = some (kw, rest) := by
  intro pat
  induction pat with
  | nil =>
    intro kw rest h
    have : kw = [] := by simpa using h
    subst this; rfl
  | cons p ps ih =>
    intro kw rest h
    cases kw with
    | nil => simp at h
    | cons c cs =>
      simp only [List.map_cons, List.cons.injEq] at h
      obtain ⟨h1, h2⟩ := h
      simp only [List.cons_append, matchLitCI, if_pos h1]
      rw [List.append_eq, ih cs rest h2]
      rfl

theorem splitAtSub_split : ∀ (d s a b : List Char), splitAtSub d s = some (a, b) →
    s = a ++ d ++ b := by
  intro d s
  induction s with
  | nil =>
    intro a b h
    cases d with
    | nil => simp only [splitAtSub, startsWithL, if_pos] at h
             simp only [Option.some.injEq, Prod.mk.injEq] at h
             obtain ⟨ha, hb⟩ := h; subst ha; subst hb; rfl
    | cons x xs => simp [splitAtSub, startsWithL] at h
  | cons c cs ih =>
    intro a b h
    simp only [splitAtSub] at h
    by_cases hs : startsWithL d (c :: cs) = true
    · rw [if_pos hs] at h
      simp only [Option.some.injEq, Prod.mk.injEq] at h
      obtain ⟨ha, hb⟩ := h
      subst ha; subst hb
      simpa using startsWithL_eq d (c :: cs) hs
    · rw [if_neg hs] at h
      cases hm : splitAtSub d cs with
      | none => rw [hm] at h; simp at h
      | some pr =>
        obtain ⟨a', b'⟩ := pr
        rw [hm] at h
        simp only [Option.map_some', Option.some.injEq, Prod.mk.injEq] at h
        obtain ⟨ha, hb⟩ := h
        rw [← ha, ← hb]
        simpa using congrArg (c :: ·) (ih a' b' hm)

theorem splitAtSub_build : ∀ (body rest : List Char), hasSubL rparenSemi body = false →
    splitAtSub rparenSemi (body ++ rparenSemi ++ rest) = some (body, rest) := by
  intro body
  induction body with
  | nil =>
    intro rest _
    show splitAtSub rparenSemi (')' :: ';' :: rest) = some ([], rest)
    simp [splitAtSub, startsWithL, rparenSemi]
  | cons c body' ih =>
    intro rest h
    simp only [hasSubL, Bool.or_eq_false_iff] at h
    obtain ⟨h1, h2⟩ := h
    have hsw : startsWithL rparenSemi (c :: (body' ++ rparenSemi ++ rest)) = false := by
      cases body' with
      | nil => simp [startsWithL, rparenSemi]
      | cons b bs =>
        show startsWithL rparenSemi (c :: b :: (bs ++ rparenSemi ++ rest)) = false
        calc startsWithL rparenSemi (c :: b :: (bs ++ rparenSemi ++ rest))
            = startsWithL rparenSemi (c :: b :: bs) := by simp [startsWithL, rparenSemi]
          _ = false := h1
    show splitAtSub rparenSemi (c :: (body' ++ rparenSemi ++ rest)) = _
    simp only [splitAtSub, hsw]
    rw [ih rest h2]
    simp

end SqlValidate

namespace SqlValidate

theorem takeWhile_append_all {p : Char → Bool} : ∀ (l : List Char) (c : Char) (r : List Char),
    l.all p = true → p c = false → ((l ++ c :: r).takeWhile p) = l := by
  intro l
  induction l with
  | nil => intro c r _ hc; simp [List.takeWhile_cons, hc]
  | cons a l' ih =>
    intro c r hall hc
    simp only [List.all_cons, Bool.and_eq_true] at hall
    simp [List.takeWhile_cons, hall.1, ih c r hall.2 hc]

theorem dropWhile_append_all {p : Char → Bool} : ∀ (l : List Char) (c : Char) (r : List Char),
    l.all p = true → p c = false → ((l ++ c :: r).dropWhile p) = c :: r := by
  intro l
  induction l with
  | nil => intro c r _ hc; simp [List.dropWhile_cons, hc]
  | cons a l' ih =>
    intro c r hall hc
    simp only [List.all_cons, Bool.and_eq_true] at hall
    simp [List.dropWhile_cons, hall.1, ih c r hall.2 hc]

theorem lazyUntil_split : ∀ s : List Char, (lazyUntil s).1 ++ (lazyUntil s).2 = s := by
  intro s
  induction s with
  | nil => rfl
  | cons c cs ih =>
    simp only [lazyUntil]
    split
    · rfl
    · simpa using ih

theorem tryTableAt_build (kw name body rest : List Char)
    (hkw : kw.map Char.toLower = tableKw.map Char.toLower)
    (hne : name ≠ []) (hword : name.all isWordChar = true)
    (hbody : hasSubL rparenSemi body = false) :
    tryTableAt (kw ++ (name ++ (spaceParen ++ (body ++ (rparenSemi ++ rest)))))
      = some ((name, body), rest) := by
  unfold tryTableAt
  rw [matchLitCI_build tableKw kw _ hkw]
  have hsp : (spaceParen ++ (body ++ (rparenSemi ++ rest)))
      = ' ' :: '(' :: (body ++ (rparenSemi ++ rest)) := rfl
  have htw : ((name ++ (spaceParen ++ (body ++ (rparenSemi ++ rest)))).takeWhile isWordChar) = name := by
    rw [hsp]
    exact takeWhile_append_all name ' ' _ hword (by decide)
  have hdw : ((name ++ (spaceParen ++ (body ++ (rparenSemi ++ rest)))).dropWhile isWordChar)
      = ' ' :: '(' :: (body ++ (rparenSemi ++ rest)) := by
    rw [hsp]
    exact dropWhile_append_all name ' ' _ hword (by decide)
  simp only [htw, hdw]
  rw [if_neg (by simpa [List.isEmpty_iff] using hne)]
  rw [if_pos (by exact startsWithL_self spaceParen _)]
  have hdrop : (' ' :: '(' :: (body ++ (rparenSemi ++ rest))).drop 2 = body ++ (rparenSemi ++ rest) := rfl
  rw [hdrop]
  have := splitAtSub_build body rest hbody
  rw [show body ++ rparenSemi ++ rest = body ++ (rparenSemi ++ rest) from by simp] at this
  rw [this]

theorem tryTableAt_some_shape : ∀ (s name body rest : List Char),
    tryTableAt s = some ((name, body), rest) →
    ∃ t, t ≠ [] ∧ s = t ++ (name ++ (spaceParen ++ (body ++ (rparenSemi ++ rest)))) := by
  intro s name body rest h
  unfold tryTableAt at h
  cases hm : matchLitCI tableKw s with
  | none => rw [hm] at h; simp at h
  | some tr =>
    obtain ⟨t, s1⟩ := tr
    rw [hm] at h
    simp only at h
    by_cases hemp : (s1.takeWhile isWordChar).isEmpty = true
    · rw [if_pos hemp] at h; simp at h
    · rw [if_neg hemp] at h
      by_cases hsw : startsWithL spaceParen (s1.dropWhile isWordChar) = true
      · rw [if_pos hsw] at h
        cases hsp : splitAtSub rparenSemi ((s1.dropWhile isWordChar).drop 2) with
        | none => rw [hsp] at h; simp at h
        | some br =>
          obtain ⟨b, r⟩ := br
          rw [hsp] at h
          simp only [Option.some.injEq, Prod.mk.injEq] at h
          obtain ⟨⟨hn, hb⟩, hr⟩ := h
          subst hn; subst hb; subst hr
          obtain ⟨hs1, hmap⟩ := matchLitCI_some tableKw s t s1 hm
          have ht : t ≠ [] := by
            intro hnil
            rw [hnil] at hmap
            exact absurd hmap.symm (by decide)
          refine ⟨t, ht, ?_⟩
          have h2 : s1.dropWhile isWordChar
              = spaceParen ++ ((s1.dropWhile isWordChar).drop 2) := by
            have := startsWithL_eq spaceParen (s1.dropWhile isWordChar) hsw
            simpa [spaceParen] using this
          have h4 := splitAtSub_split rparenSemi ((s1.dropWhile isWordChar).drop 2) _ _ hsp
          rw [hs1]
          have h5 : s1 = s1.takeWhile isWordChar ++ s1.dropWhile isWordChar :=
    (List.takeWhile_append_dropWhile isWordChar s1).symm
          congr 1
          conv_lhs => rw [h5]
          congr 1
          rw [h2]
          congr 1
          rw [h4]
          simp

      · rw [if_neg hsw] at h; simp at h

theorem tryTableAt_some_length : ∀ (s : List Char) (nb : List Char × List Char) (rest : List Char),
    tryTableAt s = some (nb, rest) → rest.length < s.length := by
  intro s nb rest h
  obtain ⟨name, body⟩ := nb
  obtain ⟨t, ht, hs⟩ := tryTableAt_some_shape s name body rest h
  have : t.length ≠ 0 := by simpa [List.length_eq_zero] using ht
  rw [hs]
  simp [List.length_append, spaceParen, rparenSemi]
  omega

end SqlValidate

namespace SqlValidate

theorem scanTablesF_step : ∀ (fuel : Nat) (s : List Char), s.length ≤ fuel →
    scanTablesF (fuel + 1) s = scanTablesF fuel s := by
  intro fuel
  induction fuel with
  | zero =>
    intro s hs
    have : s = [] := List.length_eq_zero.mp (Nat.le_zero.mp hs)
    subst this; rfl
  | succ f ih =>
    intro s hs
    cases s with
    | nil => rfl
    | cons c cs =>
      cases ht : tryTableAt (c :: cs) with
      | some nbrest =>
        obtain ⟨nb, rest⟩ := nbrest
        have hlen := tryTableAt_some_length (c :: cs) nb rest ht
        simp only [scanTablesF, ht]
        have : rest.length ≤ f := by
          simp only [List.length_cons] at hlen hs
          omega
        rw [ih rest this]
      | none =>
        simp only [scanTablesF, ht]
        have : cs.length ≤ f := by
          simp only [List.length_cons] at hs
          omega
        rw [ih cs this]

theorem scanTablesF_stable : ∀ (fuel : Nat) (s : List Char), s.length ≤ fuel →
    scanTablesF fuel s = scanTables s := by
  have key : ∀ (k : Nat) (s : List Char), scanTablesF (s.length + k) s = scanTables s := by
    intro k
    induction k with
    | zero => intro s; rfl
    | succ n ih =>
      intro s
      have : s.length + (n + 1) = (s.length + n) + 1 := rfl
      rw [this, scanTablesF_step (s.length + n) s (Nat.le_add_right _ _), ih s]
  intro fuel s hs
  have : fuel = s.length + (fuel - s.length) := by omega
  rw [this, key]

theorem scanTablesF_skip : ∀ (pre : List Char) (s : List Char) (fuel : Nat),
    (∀ i, i < pre.length → matchLitCI tableKw ((pre ++ s).drop i) = none) →
    scanTablesF fuel (pre ++ s) = scanTablesF (fuel - pre.length) s := by
  intro pre
  induction pre with
  | nil => intro s fuel _; simp
  | cons c pre' ih =>
    intro s fuel h
    cases fuel with
    | zero => simp [scanTablesF]
    | succ f =>
      have h0 := h 0 (by simp)
      simp only [List.drop_zero] at h0
      have htry : tryTableAt ((c :: pre') ++ s) = none := by
        unfold tryTableAt
        rw [h0]
      have hrest : ∀ i, i < pre'.length → matchLitCI tableKw ((pre' ++ s).drop i) = none := by
        intro i hi
        have := h (i + 1) (by simp only [List.length_cons]; omega)
        simpa [List.drop_succ_cons] using this
      rw [List.cons_append]
      simp only [scanTablesF]
      rw [show tryTableAt (c :: (pre' ++ s)) = none from htry]
      rw [ih s f hrest]
      have hfe : f + 1 - (c :: pre').length = f - pre'.length := by
        simp only [List.length_cons]
        omega
      rw [hfe]

theorem scanTablesF_cons_match : ∀ (fuel : Nat) (s : List Char) (nb : List Char × List Char)
    (rest : List Char), s.length ≤ fuel → tryTableAt s = some (nb, rest) →
    scanTablesF fuel s = nb :: scanTables rest := by
  intro fuel s nb rest hf ht
  cases s with
  | nil => rw [show tryTableAt ([] : List Char) = none from rfl] at ht; simp at ht
  | cons c cs =>
    cases fuel with
    | zero => simp at hf
    | succ f =>
      simp only [scanTablesF, ht]
      have hlen := tryTableAt_some_length (c :: cs) nb rest ht
      have : rest.length ≤ f := by
        simp only [List.length_cons] at hlen hf
        omega
      rw [scanTablesF_stable f rest this]

end SqlValidate

namespace SqlValidate

theorem scanViewsF_nil : ∀ (fuel : Nat) (s : List Char), hasSubCI svMarker s = false →
    scanViewsF fuel s = [] := by
  intro fuel
  induction fuel with
  | zero => intro s _; cases s <;> rfl
  | succ f ih =>
    intro s h
    cases s with
    | nil => rfl
    | cons c cs =>
      simp only [hasSubCI, Bool.or_eq_false_iff] at h
      cases hm : matchLitCI svMarker (c :: cs) with
      | some tr =>
        exfalso
        rw [hm] at h
        simp at h
      | none =>
        simp only [scanViewsF, hm]
        exact ih cs h.2

theorem scanViewsF_blocks : ∀ (fuel : Nat) (s block : List Char), block ∈ scanViewsF fuel s →
    (∃ t mid, block = t ++ mid ∧ t.map Char.toLower = svMarker.map Char.toLower) ∧
    ∃ u v, s = u ++ block ++ v := by
  intro fuel
  induction fuel with
  | zero => intro s block h; simp [scanViewsF] at h
  | succ f ih =>
    intro s block h
    cases s with
    | nil => simp [scanViewsF] at h
    | cons c cs =>
      cases hm : matchLitCI svMarker (c :: cs) with
      | none =>
        simp only [scanViewsF, hm] at h
        obtain ⟨hhead, u, v, huv⟩ := ih cs block h
        exact ⟨hhead, c :: u, v, by rw [List.cons_append, List.cons_append, ← huv]⟩
      | some tr =>
        obtain ⟨t, s1⟩ := tr
        simp only [scanViewsF, hm, List.mem_cons] at h
        obtain ⟨hsplit, hmap⟩ := matchLitCI_some svMarker (c :: cs) t s1 hm
        rcases h with hb | hb
        · refine ⟨⟨t, (lazyUntil s1).1, hb, hmap⟩, [], (lazyUntil s1).2, ?_⟩
          rw [hb, hsplit]
          rw [List.nil_append, List.append_assoc, lazyUntil_split s1]
        · obtain ⟨hhead, u, v, huv⟩ := ih (lazyUntil s1).2 block hb
          refine ⟨hhead, (t ++ (lazyUntil s1).1) ++ u, v, ?_⟩
          rw [hsplit]
          conv_lhs => rw [← lazyUntil_split s1]
          rw [huv]
          simp [List.append_assoc]

end SqlValidate

namespace SqlValidate

theorem lookupD_dictInsert_self {α : Type} : ∀ (d : List (List Char × α)) (k : List Char) (v : α),
    lookupD (dictInsert d k v) k = some v := by
  intro d k v
  induction d with
  | nil => simp [dictInsert, lookupD]
  | cons kv d' ih =>
    obtain ⟨k', v'⟩ := kv
    by_cases hk : k' = k
    · subst hk
      simp [dictInsert, lookupD]
    · simp [dictInsert, hk, lookupD, ih]

theorem lookupD_dictInsert_ne {α : Type} : ∀ (d : List (List Char × α)) (k key : List Char) (v : α),
    key ≠ k → lookupD (dictInsert d k v) key = lookupD d key := by
  intro d k key v hne
  induction d with
  | nil =>
    simp only [dictInsert, lookupD]
    rw [if_neg (Ne.symm hne)]
  | cons kv d' ih =>
    obtain ⟨k', v'⟩ := kv
    by_cases hk : k' = k
    · have hne2 : k' ≠ key := fun h => hne (h ▸ hk)
      simp only [dictInsert, if_pos hk, lookupD, if_neg hne2]
    · simp only [dictInsert, if_neg hk, lookupD]
      by_cases hkey : k' = key
      · rw [if_pos hkey, if_pos hkey]
      · rw [if_neg hkey, if_neg hkey, ih]

theorem lookupD_foldl_isSome {β : Type} (f : List Char × List Char → List Char)
    (g : List Char × List Char → β) :
    ∀ (l : List (List Char × List Char)) (d : List (List Char × β)) (k : List Char),
    (lookupD d k).isSome = true →
    (lookupD (l.foldl (fun d nb => dictInsert d (f nb) (g nb)) d) k).isSome = true := by
  intro l
  induction l with
  | nil => intro d k h; simpa using h
  | cons nb l' ih =>
    intro d k h
    simp only [List.foldl_cons]
    apply ih
    by_cases hk : k = f nb
    · subst hk
      rw [lookupD_dictInsert_self]
      rfl
    · rw [lookupD_dictInsert_ne d (f nb) k (g nb) hk]
      exact h

theorem lookupD_foldl_inv {β : Type} (f : List Char × List Char → List Char)
    (g : List Char × List Char → β) :
    ∀ (l : List (List Char × List Char)) (d : List (List Char × β)) (k : List Char) (v : β),
    lookupD (l.foldl (fun d nb => dictInsert d (f nb) (g nb)) d) k = some v →
    (∃ nb, nb ∈ l ∧ k = f nb ∧ v = g nb) ∨ lookupD d k = some v := by
  intro l
  induction l with
  | nil => intro d k v h; right; simpa using h
  | cons nb l' ih =>
    intro d k v h
    simp only [List.foldl_cons] at h
    rcases ih _ k v h with ⟨nb', hmem, hk, hv⟩ | hbase
    · exact Or.inl ⟨nb', List.mem_cons_of_mem _ hmem, hk, hv⟩
    · by_cases hk : k = f nb
      · subst hk
        rw [lookupD_dictInsert_self] at hbase
        refine Or.inl ⟨nb, List.mem_cons_self _ _, rfl, ?_⟩
        exact (Option.some.injEq _ _ ▸ hbase : g nb = v).symm
      · right
        rw [lookupD_dictInsert_ne d (f nb) k (g nb) hk] at hbase
        exact hbase

theorem memL_iff : ∀ (x : List Char) (l : List (List Char)), memL x l = true ↔ x ∈ l := by
  intro x l
  induction l with
  | nil => simp [memL]
  | cons y ys ih =>
    by_cases h : x = y
    · simp [memL, h]
    · simp [memL, h, ih]

theorem filter_head_split {α : Type} (p : α → Bool) :
    ∀ (l : List α) (c : α) (t : List α), l.filter p = c :: t →
    ∃ l1 l2, l = l1 ++ c :: l2 ∧ (∀ x, x ∈ l1 → p x = false) ∧ p c = true := by
  intro l
  induction l with
  | nil => intro c t h; simp at h
  | cons a l' ih =>
    intro c t h
    by_cases hp : p a = true
    · rw [List.filter_cons_of_pos hp] at h
      injection h with h1 h2
      subst h1
      exact ⟨[], l', by simp, by intro x hx; simp at hx, hp⟩
    · rw [List.filter_cons_of_neg (by simpa using hp)] at h
      obtain ⟨l1, l2, hl, hfalse, hc⟩ := ih c t h
      refine ⟨a :: l1, l2, by rw [hl]; rfl, ?_, hc⟩
      intro x hx
      rcases List.mem_cons.mp hx with hx | hx
      · subst hx; simpa using hp
      · exact hfalse x hx

end SqlValidate

namespace SqlValidate

set_option maxRecDepth 1000000

/-- C4: the overall validation result is success exactly when the error list
is empty — warnings never cause failure — and the process exit code is 0
exactly when the error count is zero and 1 otherwise. -/
theorem c4_success_exit (text : List Char) :
    (validate_column_references text = true ↔ (validationReport text).errors = []) ∧
    (exitCode (validate_column_references text) = 0 ↔ (validationReport text).errors = []) ∧
    (exitCode (validate_column_references text) = 1 ↔ (validationReport text).errors ≠ []) := by
  have hbase : validate_column_references text = true ↔ (validationReport text).errors = [] := by
    unfold validate_column_references
    rw [beq_iff_eq, List.length_eq_zero]
  by_cases herr : (validationReport text).errors = []
  · have hv : validate_column_references text = true := hbase.mpr herr
    rw [hv]
    simp [exitCode, herr]
  · have hv : validate_column_references text = false := by
      cases hv : validate_column_references text
      · rfl
      · exact absurd (hbase.mp hv) herr
    rw [hv]
    simp [exitCode, herr]

/-- C7: the alias resolver is total; it returns the configured table for a
lower-cased alias present in the alias map and the lower-cased alias itself
otherwise. -/
theorem c7_alias_resolver (a : List Char) :
    (∀ t, lookupD aliasMapping (toLowerL a) = some t → resolveAlias a = t) ∧
    (lookupD aliasMapping (toLowerL a) = none → resolveAlias a = toLowerL a) := by
  constructor
  · intro t h
    unfold resolveAlias
    rw [h]
  · intro h
    unfold resolveAlias
    rw [h]

/-- Witness for C7 at a mapped alias (upper-case, exercising the lower-casing)
and at an unmapped alias. -/
theorem c7_alias_resolver_witness :
    resolveAlias ("DEMOGRAPHICS".toList) = "audience_demographics".toList ∧
    resolveAlias ("unknownalias".toList) = "unknownalias".toList := by
  constructor
  · exact (c7_alias_resolver ("DEMOGRAPHICS".toList)).1 ("audience_demographics".toList) (by decide)
  · exact (c7_alias_resolver ("unknownalias".toList)).2 (by decide)

/-- C9: the checker is a pure function of the input text: identical inputs
give identical reports, errors, warnings and counts. -/
theorem c9_deterministic (t1 t2 : List Char) (h : t1 = t2) :
    validationReport t1 = validationReport t2 ∧
    validate_column_references t1 = validate_column_references t2 := by
  subst h
  exact ⟨rfl, rfl⟩

/-- Witness for C9 on a concrete document. -/
theorem c9_deterministic_witness :
    validationReport ("CREATE OR REPLACE SEMANTIC VIEW v AS SELECT creatives.ctr".toList)
      = validationReport ("CREATE OR REPLACE SEMANTIC VIEW v AS SELECT creatives.ctr".toList) ∧
    validate_column_references ("CREATE OR REPLACE SEMANTIC VIEW v AS SELECT creatives.ctr".toList)
      = validate_column_references ("CREATE OR REPLACE SEMANTIC VIEW v AS SELECT creatives.ctr".toList) :=
  c9_deterministic _ _ rfl

/-- C10: the dotted-reference pattern accepts digit tokens: on a semantic
view containing the numeral `3.14` the extractor emits the pair
`("3", "14")` and the validator reports it as a table-not-found warning. -/
theorem c10_numeric_dotted :
    extract_semantic_view_references ("CREATE OR REPLACE SEMANTIC VIEW v AS SELECT 3.14".toList)
      = [("3".toList, "14".toList)] ∧
    (validationReport ("CREATE OR REPLACE SEMANTIC VIEW v AS SELECT 3.14".toList)).warnings
      = [mkTblWarn ("3".toList) ("3".toList)] ∧
    (validationReport ("CREATE OR REPLACE SEMANTIC VIEW v AS SELECT 3.14".toList)).errors
      = [] := by
  exact ⟨by decide, by decide, by decide⟩

end SqlValidate

namespace SqlValidate

/-- C1 counterexample: the pseudo-column reference `performance.MAX` emits no
error and no warning, but it is NOT excluded from the reported
`Column references checked` count — the count is 1, not 0, because the
summary filter only removes the exact-case strings `COUNT`, `SUM`, `AVG`. -/
theorem c1_cex :
    extract_semantic_view_references
        ("CREATE OR REPLACE SEMANTIC VIEW v AS SELECT performance.MAX".toList)
      = [("performance".toList, "MAX".toList)] ∧
    isPseudo ("MAX".toList) = true ∧
    (validationReport ("CREATE OR REPLACE SEMANTIC VIEW v AS SELECT performance.MAX".toList)).errors
      = [] ∧
    (validationReport ("CREATE OR REPLACE SEMANTIC VIEW v AS SELECT performance.MAX".toList)).warnings
      = [] ∧
    (validationReport ("CREATE OR REPLACE SEMANTIC VIEW v AS SELECT performance.MAX".toList)).refsChecked
      = 1 := by
  exact ⟨by decide, by decide, by decide, by decide, by decide⟩

/-- C1 amended: a pseudo-column reference contributes no error and no
warning, but the `Column references checked` summary count excludes a
reference exactly when its column is the literal `COUNT`, `SUM` or `AVG`
(exact case); all other pseudo-columns remain counted. -/
theorem c1_amended (text a c : List Char)
    (hmem : (a, c) ∈ extract_semantic_view_references text)
    (hps : isPseudo c = true) :
    refErrors (extract_table_columns text) (a, c) = [] ∧
    refWarnings (extract_table_columns text) (a, c) = [] ∧
    ((a, c) ∈ (extract_semantic_view_references text).filter checkedPred ↔ c ∉ csaList) ∧
    (validationReport text).refsChecked
      = ((extract_semantic_view_references text).filter checkedPred).length := by
  have hcl : classifyRef (extract_table_columns text) (a, c) = Outcome.skip := by
    unfold classifyRef
    simp [hps]
  have hcp : checkedPred (a, c) = true ↔ c ∉ csaList := by
    unfold checkedPred
    rw [Bool.not_eq_true']
    constructor
    · intro h hc
      rw [(memL_iff c csaList).mpr hc] at h
      exact Bool.noConfusion h
    · intro h
      cases hm : memL c csaList
      · rfl
      · exact absurd ((memL_iff c csaList).mp hm) h
  refine ⟨?_, ?_, ?_, rfl⟩
  · unfold refErrors
    rw [hcl]
  · unfold refWarnings
    rw [hcl]
  · rw [List.mem_filter]
    exact ⟨fun h => hcp.mp h.2, fun hc => ⟨hmem, hcp.mpr hc⟩⟩

/-- Witness for the amended C1 at the pseudo-column reference
`performance.MAX`. -/
theorem c1_amended_witness :
    refErrors
        (extract_table_columns
          ("CREATE OR REPLACE SEMANTIC VIEW v AS SELECT performance.MAX".toList))
        (("performance".toList, "MAX".toList)) = [] ∧
    refWarnings
        (extract_table_columns
          ("CREATE OR REPLACE SEMANTIC VIEW v AS SELECT performance.MAX".toList))
        (("performance".toList, "MAX".toList)) = [] ∧
    ((("performance".toList, "MAX".toList))
        ∈ (extract_semantic_view_references
            ("CREATE OR REPLACE SEMANTIC VIEW v AS SELECT performance.MAX".toList)).filter checkedPred
      ↔ ("MAX".toList) ∉ csaList) ∧
    (validationReport ("CREATE OR REPLACE SEMANTIC VIEW v AS SELECT performance.MAX".toList)).refsChecked
      = ((extract_semantic_view_references
          ("CREATE OR REPLACE SEMANTIC VIEW v AS SELECT performance.MAX".toList)).filter checkedPred).length :=
  c1_amended ("CREATE OR REPLACE SEMANTIC VIEW v AS SELECT performance.MAX".toList)
    ("performance".toList) ("MAX".toList) (by decide) (by decide)

end SqlValidate

namespace SqlValidate

/-- C5: a dotted pair outside every semantic-view block is never extracted:
a document with no semantic-view marker yields no references at all, and
every extracted reference comes from a scanned block that begins with the
(case-insensitive) marker and is a contiguous part of the document; blocks
are processed in document order and their pairs concatenated. -/
theorem c5_scoping (text : List Char) :
    (hasSubCI svMarker text = false → extract_semantic_view_references text = []) ∧
    (∀ r, r ∈ extract_semantic_view_references text →
      ∃ block, block ∈ scanViews text ∧ r ∈ findDotted block ∧
        (∃ t mid, block = t ++ mid ∧ t.map Char.toLower = svMarker.map Char.toLower) ∧
        ∃ u v, text = u ++ block ++ v) := by
  constructor
  · intro h
    unfold extract_semantic_view_references scanViews
    rw [scanViewsF_nil text.length text h]
    rfl
  · intro r hr
    unfold extract_semantic_view_references at hr
    rw [List.mem_flatten] at hr
    obtain ⟨refs, hrefs, hrin⟩ := hr
    rw [List.mem_map] at hrefs
    obtain ⟨block, hblock, hfd⟩ := hrefs
    subst hfd
    obtain ⟨hhead, u, v, huv⟩ := scanViewsF_blocks text.length text block hblock
    exact ⟨block, hblock, hrin, hhead, u, v, huv⟩

/-- Witness for C5: a dotted pair inside a plain CREATE TABLE body (no
semantic-view marker anywhere) is not extracted. -/
theorem c5_scoping_witness :
    extract_semantic_view_references ("CREATE OR REPLACE TABLE t (\n  a.b INT\n);".toList) = [] :=
  (c5_scoping ("CREATE OR REPLACE TABLE t (\n  a.b INT\n);".toList)).1 (by decide)

end SqlValidate

namespace SqlValidate

/-- C6 counterexample: with no table definitions in the input, a
pseudo-column reference (`x.total_segments`) is skipped entirely rather
than reported as a table-not-found warning, so not EVERY extracted
reference is reported. -/
theorem c6_cex :
    extract_table_columns
        ("CREATE OR REPLACE SEMANTIC VIEW v AS SELECT x.total_segments".toList) = [] ∧
    extract_semantic_view_references
        ("CREATE OR REPLACE SEMANTIC VIEW v AS SELECT x.total_segments".toList)
      = [("x".toList, "total_segments".toList)] ∧
    (validationReport
        ("CREATE OR REPLACE SEMANTIC VIEW v AS SELECT x.total_segments".toList)).warnings = [] ∧
    (validationReport
        ("CREATE OR REPLACE SEMANTIC VIEW v AS SELECT x.total_segments".toList)).errors = [] := by
  exact ⟨by decide, by decide, by decide, by decide⟩

/-- C6 amended: when the scan finds no table definition the extractor
returns the empty mapping (not an error), and the validator classifies every
extracted NON-pseudo-column reference as table-not-found, producing exactly
one warning and no error for it, and still completes with a full report. -/
theorem c6_amended (text : List Char) (h : scanTables text = []) :
    extract_table_columns text = [] ∧
    ∀ a c, (a, c) ∈ extract_semantic_view_references text → isPseudo c = false →
      classifyRef (extract_table_columns text) (a, c)
        = Outcome.tableNotFound a (resolveAlias a) ∧
      refWarnings (extract_table_columns text) (a, c) = [mkTblWarn (resolveAlias a) a] ∧
      refErrors (extract_table_columns text) (a, c) = [] := by
  have hext : extract_table_columns text = [] := by
    unfold extract_table_columns
    rw [h]
    rfl
  refine ⟨hext, ?_⟩
  intro a c _ hps
  rw [hext]
  have hcl : classifyRef [] (a, c) = Outcome.tableNotFound a (resolveAlias a) := by
    unfold classifyRef
    simp [hps, lookupD]
  refine ⟨hcl, ?_, ?_⟩
  · unfold refWarnings
    rw [hcl]
  · unfold refErrors
    rw [hcl]

/-- Witness for the amended C6: with no tables, `demographics.age_group`
resolves to `audience_demographics` and is reported as table-not-found. -/
theorem c6_amended_witness :
    classifyRef
        (extract_table_columns
          ("CREATE OR REPLACE SEMANTIC VIEW v AS SELECT demographics.age_group".toList))
        (("demographics".toList, "age_group".toList))
      = Outcome.tableNotFound ("demographics".toList) (resolveAlias ("demographics".toList)) ∧
    refWarnings
        (extract_table_columns
          ("CREATE OR REPLACE SEMANTIC VIEW v AS SELECT demographics.age_group".toList))
        (("demographics".toList, "age_group".toList))
      = [mkTblWarn (resolveAlias ("demographics".toList)) ("demographics".toList)] ∧
    refErrors
        (extract_table_columns
          ("CREATE OR REPLACE SEMANTIC VIEW v AS SELECT demographics.age_group".toList))
        (("demographics".toList, "age_group".toList)) = [] :=
  (c6_amended ("CREATE OR REPLACE SEMANTIC VIEW v AS SELECT demographics.age_group".toList)
      (by decide)).2
    ("demographics".toList) ("age_group".toList) (by decide) (by decide)

end SqlValidate

namespace SqlValidate

/-- C2: for a non-pseudo reference whose resolved table is present in the
schema map, an exact-case column gives outcome OK with no error and no
warning; otherwise, when at least one column matches case-insensitively the
reference yields exactly one CASE_MISMATCH error suggesting the first such
column in declared order; otherwise exactly one COLUMN_NOT_FOUND warning. -/
theorem c2_classification (tables : List (List Char × List (List Char)))
    (a column : List Char) (cols : List (List Char))
    (hps : isPseudo column = false)
    (htab : lookupD tables (resolveAlias a) = some cols) :
    (column ∈ cols →
      classifyRef tables (a, column) = Outcome.ok ∧
      refErrors tables (a, column) = [] ∧
      refWarnings tables (a, column) = []) ∧
    (column ∉ cols →
      ∀ correct t2, cols.filter (fun c => toLowerL c = toLowerL column) = correct :: t2 →
        classifyRef tables (a, column) = Outcome.caseMismatch a column correct ∧
        refErrors tables (a, column) = [mkCaseErr a column correct] ∧
        refWarnings tables (a, column) = [] ∧
        toLowerL correct = toLowerL column ∧
        ∃ l1 l2, cols = l1 ++ correct :: l2 ∧
          ∀ x, x ∈ l1 → toLowerL x ≠ toLowerL column) ∧
    (column ∉ cols →
      cols.filter (fun c => toLowerL c = toLowerL column) = [] →
        classifyRef tables (a, column) = Outcome.columnNotFound a column (resolveAlias a) ∧
        refWarnings tables (a, column) = [mkColWarn a column (resolveAlias a)] ∧
        refErrors tables (a, column) = []) := by
  have hcl : classifyRef tables (a, column)
      = (if column ∈ cols then Outcome.ok
        else
          match cols.filter (fun c => toLowerL c = toLowerL column) with
          | [] => Outcome.columnNotFound a column (resolveAlias a)
          | c :: _ => Outcome.caseMismatch a column c) := by
    unfold classifyRef
    rw [if_neg (by simp [hps])]
    dsimp only
    rw [htab]
  refine ⟨?_, ?_, ?_⟩
  · intro hmem
    have hok : classifyRef tables (a, column) = Outcome.ok := by
      rw [hcl, if_pos hmem]
    refine ⟨hok, ?_, ?_⟩
    · unfold refErrors
      rw [hok]
    · unfold refWarnings
      rw [hok]
  · intro hnmem correct t2 hfil
    have hcm : classifyRef tables (a, column) = Outcome.caseMismatch a column correct := by
      rw [hcl, if_neg hnmem, hfil]
    obtain ⟨l1, l2, hdec, hfalse, hc⟩ :=
      filter_head_split (fun c => decide (toLowerL c = toLowerL column)) cols correct t2 hfil
    refine ⟨hcm, ?_, ?_, ?_, l1, l2, hdec, ?_⟩
    · unfold refErrors
      rw [hcm]
    · unfold refWarnings
      rw [hcm]
    · simpa using hc
    · intro x hx
      have := hfalse x hx
      simpa using this
  · intro hnmem hfil
    have hcn : classifyRef tables (a, column)
        = Outcome.columnNotFound a column (resolveAlias a) := by
      rw [hcl, if_neg hnmem, hfil]
    refine ⟨hcn, ?_, ?_⟩
    · unfold refWarnings
      rw [hcn]
    · unfold refErrors
      rw [hcn]

/-- Witness for C2: `creatives.sentiment_score` against a table declaring
`Sentiment_Score` is a case mismatch suggesting `Sentiment_Score`. -/
theorem c2_classification_witness :
    classifyRef [("creative_metadata".toList, ["Sentiment_Score".toList])]
        (("creatives".toList, "sentiment_score".toList))
      = Outcome.caseMismatch ("creatives".toList) ("sentiment_score".toList)
          ("Sentiment_Score".toList) ∧
    refErrors [("creative_metadata".toList, ["Sentiment_Score".toList])]
        (("creatives".toList, "sentiment_score".toList))
      = [mkCaseErr ("creatives".toList) ("sentiment_score".toList) ("Sentiment_Score".toList)] := by
  have h := (c2_classification [("creative_metadata".toList, ["Sentiment_Score".toList])]
      ("creatives".toList) ("sentiment_score".toList) (["Sentiment_Score".toList])
      (by decide) (by decide)).2.1 (by decide) ("Sentiment_Score".toList) [] (by decide)
  exact ⟨h.1, h.2.1⟩

end SqlValidate

namespace SqlValidate

/-- C3 counterexample: a table definition written `CREATE TABLE t (a INT);`
(without `OR REPLACE`) is not recognized — the extractor finds no match and
`t` does not appear in the output mapping. -/
theorem c3_cex :
    scanTables ("CREATE TABLE t (a INT);".toList) = [] ∧
    extract_table_columns ("CREATE TABLE t (a INT);".toList) = [] := by
  exact ⟨by decide, by decide⟩

/-- C3 amended: the recognized shape is `CREATE OR REPLACE TABLE <name> (
<body> );` — keywords matched case-insensitively, exactly one space before
the parenthesis, name a nonempty identifier token, body free of the
terminator `);`.  Such a definition, preceded by text in which no keyword
match starts, is captured: the scanner emits `(name, body)` and continues
after the definition, and the lower-cased name appears in the output
mapping. -/
theorem c3_amended (pre kw name body rest : List Char)
    (hpre : ∀ i, i < pre.length →
      matchLitCI tableKw
        ((pre ++ (kw ++ (name ++ (spaceParen ++ (body ++ (rparenSemi ++ rest)))))).drop i) = none)
    (hkw : kw.map Char.toLower = tableKw.map Char.toLower)
    (hne : name ≠ []) (hword : name.all isWordChar = true)
    (hbody : hasSubL rparenSemi body = false) :
    scanTables (pre ++ (kw ++ (name ++ (spaceParen ++ (body ++ (rparenSemi ++ rest))))))
      = (name, body) :: scanTables rest ∧
    (lookupD
        (extract_table_columns
          (pre ++ (kw ++ (name ++ (spaceParen ++ (body ++ (rparenSemi ++ rest)))))))
        (toLowerL name)).isSome = true := by
  have hscan : scanTables (pre ++ (kw ++ (name ++ (spaceParen ++ (body ++ (rparenSemi ++ rest))))))
      = (name, body) :: scanTables rest := by
    unfold scanTables
    rw [scanTablesF_skip pre (kw ++ (name ++ (spaceParen ++ (body ++ (rparenSemi ++ rest)))))
      (pre ++ (kw ++ (name ++ (spaceParen ++ (body ++ (rparenSemi ++ rest)))))).length hpre]
    have hlen : (pre ++ (kw ++ (name ++ (spaceParen ++ (body ++ (rparenSemi ++ rest)))))).length
        - pre.length = (kw ++ (name ++ (spaceParen ++ (body ++ (rparenSemi ++ rest))))).length := by
      simp only [List.length_append]
      omega
    rw [hlen]
    exact scanTablesF_cons_match _ _ (name, body) rest (Nat.le_refl _)
      (tryTableAt_build kw name body rest hkw hne hword hbody)
  refine ⟨hscan, ?_⟩
  unfold extract_table_columns
  rw [hscan]
  simp only [List.foldl_cons]
  apply lookupD_foldl_isSome (fun nb => toLowerL nb.1) (fun nb => parseColumns nb.2)
  rw [lookupD_dictInsert_self]
  rfl

/-- Witness for the amended C3: a lower-case `create or replace table`
definition of `My_Table` is captured and keyed as `my_table`. -/
theorem c3_amended_witness :
    scanTables (([] : List Char)
        ++ ("create or replace table ".toList
          ++ ("My_Table".toList
            ++ (spaceParen ++ (" x INT".toList ++ (rparenSemi ++ ([] : List Char)))))))
      = ("My_Table".toList, " x INT".toList) :: scanTables ([] : List Char) ∧
    (lookupD
        (extract_table_columns
          (([] : List Char)
            ++ ("create or replace table ".toList
              ++ ("My_Table".toList
                ++ (spaceParen ++ (" x INT".toList ++ (rparenSemi ++ ([] : List Char))))))))
        (toLowerL ("My_Table".toList))).isSome = true :=
  c3_amended [] ("create or replace table ".toList) ("My_Table".toList) (" x INT".toList) []
    (fun i hi => by simp at hi) (by decide) (by decide) (by decide) (by decide)

end SqlValidate

namespace SqlValidate

/-- C8 counterexample: the definition `CREATE OR REPLACE TABLE t ();` is
captured with an EMPTY column list, so a declared table's column list is not
always non-empty. -/
theorem c8_cex :
    lookupD (extract_table_columns ("CREATE OR REPLACE TABLE t ();".toList)) ("t".toList)
      = some [] := by
  decide

/-- C8 amended: every entry of the extractor's output mapping comes from a
scanned `(name, body)` match, keyed by the lower-cased name with the parsed
columns of the body as value; the column list is non-empty exactly when the
body contains at least one column-declaration line (non-blank after
stripping, not a `--` comment, not a `FOREIGN KEY` line, starting with a
word character) — it may be empty. -/
theorem c8_amended (text tn : List Char) (cols : List (List Char))
    (h : lookupD (extract_table_columns text) tn = some cols) :
    ∃ name body, (name, body) ∈ scanTables text ∧ tn = toLowerL name ∧
      cols = parseColumns body ∧
      (cols ≠ [] ↔ ∃ line, line ∈ splitOnNl body ∧ (colOfLine line).isSome = true) := by
  unfold extract_table_columns at h
  rcases lookupD_foldl_inv (fun nb => toLowerL nb.1) (fun nb => parseColumns nb.2)
      (scanTables text) [] tn cols h with ⟨nb, hmem, hk, hv⟩ | hbase
  · obtain ⟨name, body⟩ := nb
    refine ⟨name, body, hmem, by simpa using hk, by simpa using hv, ?_⟩
    have hv2 : cols = parseColumns body := by simpa using hv
    rw [hv2]
    unfold parseColumns
    rw [Ne, List.filterMap_eq_nil_iff]
    push_neg
    constructor
    · rintro ⟨line, hline, hne⟩
      exact ⟨line, hline, Option.isSome_iff_ne_none.mpr hne⟩
    · rintro ⟨line, hline, hs⟩
      exact ⟨line, hline, Option.isSome_iff_ne_none.mp hs⟩
  · simp [lookupD] at hbase

/-- Witness for the amended C8 on a one-column table. -/
theorem c8_amended_witness :
    ∃ name body,
      (name, body) ∈ scanTables ("CREATE OR REPLACE TABLE Tbl (\n a INT\n);".toList) ∧
      ("tbl".toList) = toLowerL name ∧
      ([("a".toList)] : List (List Char)) = parseColumns body ∧
      (([("a".toList)] : List (List Char)) ≠ []
        ↔ ∃ line, line ∈ splitOnNl body ∧ (colOfLine line).isSome = true) :=
  c8_amended ("CREATE OR REPLACE TABLE Tbl (\n a INT\n);".toList) ("tbl".toList)
    [("a".toList)] (by decide)

end SqlValidate
